import Mathlib

/-!
Shallow embedding of `zongfe.py`, a per-period activity-score aggregator.

The program reads per-period spreadsheet files (`S*.xlsx`), merges them with an
optional previously written summary table, and writes one cumulative table
sorted by total score.  Spreadsheet cell values are modelled by `Cell`
(empty cell / string / integer), a workbook by its header row and data rows,
and each top-level Python function by a Lean function of the same name
(`process_activity_data` becomes `processActivityData`,
`read_existing_summary` becomes `readExistingSummary`).  File-system effects
are modelled by passing the candidate file list and the optional existing
summary table explicitly; the returned `Option STable` is the table written to
the summary file (`none` = the run returns without writing).  Cosmetic styling
(`beautify_excel`) alters no data and is not modelled.
-/

/-- A spreadsheet cell value: an empty cell (Python `None`), a string, or an
integer. -/
inductive Cell where
  | empty : Cell
  | str : String → Cell
  | num : Int → Cell
deriving DecidableEq, Repr

/-- Python `str(v)` on a cell value: `str(None) = "None"`, strings unchanged,
integers printed in decimal. -/
def pyStr : Cell → String
  | Cell.empty => "None"
  | Cell.str s => s
  | Cell.num n => toString n

/-- Lookup in an insertion-ordered association list (a Python `dict`). -/
def alookup {α : Type} : List (String × α) → String → Option α
  | [], _ => none
  | (k', v) :: rest, k => if k' = k then some v else alookup rest k

/-- `d[k] = v` on an insertion-ordered association list: overwrite in place if
the key exists, otherwise append (Python `dict` assignment semantics). -/
def aset {α : Type} : List (String × α) → String → α → List (String × α)
  | [], k, v => [(k, v)]
  | (k', v') :: rest, k, v =>
    if k' = k then (k, v) :: rest else (k', v') :: aset rest k v

/-- Does `pat` occur at the front of `s`? -/
def strMatch : List Char → List Char → Bool
  | [], _ => true
  | _ :: _, [] => false
  | p :: ps, c :: cs => decide (p = c) && strMatch ps cs

/-- Fuel-indexed worker for `pyReplace` (structural recursion on the fuel so
that the kernel can evaluate it; with fuel ≥ the list length the fuel never
runs out because each step consumes at least one character). -/
def pyReplaceFuel (pat rep : List Char) : Nat → List Char → List Char
  | _, [] => []
  | 0, s => s
  | fuel + 1, c :: rest =>
    if pat ≠ [] ∧ strMatch pat (c :: rest) = true then
      rep ++ pyReplaceFuel pat rep fuel ((c :: rest).drop pat.length)
    else
      c :: pyReplaceFuel pat rep fuel rest

/-- Python `s.replace(pat, rep)` on character lists: replace every
(leftmost-first, non-overlapping) occurrence of `pat` by `rep`.  The guard
`pat ≠ []` is vacuous for the two patterns the program uses. -/
def pyReplace (pat rep s : List Char) : List Char :=
  pyReplaceFuel pat rep s.length s

/-- The period key derived from a candidate file name, line 51-52 of the
source: `period = file.replace('S', '').replace('.xlsx', '')` followed by
`period_key = f'S{period}'`.  Note that Python `str.replace` removes every
occurrence, not just the leading `'S'`/trailing `'.xlsx'`. -/
def periodLabel (name : String) : String :=
  ⟨'S' :: pyReplace ".xlsx".data [] (pyReplace ['S'] [] name.data)⟩

/-- Remove `pat` from the front of `s` if it is there (used only by
`specPeriodLabel` below). -/
def stripFront (pat s : List Char) : List Char :=
  if strMatch pat s then s.drop pat.length else s

/-- Comparison definition for claim C8, following the spec's words rather than
the source: "the file's base name with a fixed prefix and fixed suffix
stripped, then the prefix re-added" — strip one leading `'S'`, strip one
trailing `'.xlsx'`, re-add `'S'`. -/
def specPeriodLabel (name : String) : String :=
  ⟨'S' :: (stripFront ".xlsx".data.reverse (stripFront ['S'] name.data).reverse).reverse⟩

/-- Python `header.startswith('S')`: the first character is `'S'`. -/
def startsWithS (s : String) : Bool :=
  match s.data with
  | [] => false
  | c :: _ => decide (c = 'S')

/-- Lexicographic (code-point) order on character lists, as Python compares
strings. -/
def clLe : List Char → List Char → Bool
  | [], _ => true
  | _ :: _, [] => false
  | a :: as, b :: bs => if a = b then clLe as bs else decide (a.toNat < b.toNat)

/-- Python string `<=` (lexicographic by code point). -/
def strLe (a b : String) : Bool := clLe a.data b.data

/-- Participant identity attributes, `participant_info[sid] = [name, phone]`. -/
structure PInfo where
  pname : Cell
  pphone : Cell
deriving DecidableEq, Repr

/-- One participant's record in `all_data`: `{'info': [...], 'scores': {...}}`.
The score dict maps a period key to the raw stored cell value. -/
structure PData where
  info : PInfo
  scores : List (String × Cell)
deriving DecidableEq, Repr

/-- The mutable state of `process_activity_data` during ingestion:
`all_data`, `all_participants` (a set, modelled in insertion order — no claim
depends on Python's set iteration order because the output is re-sorted),
`participant_info`, and `processed_files`. -/
structure IngestState where
  allData : List (String × PData)
  participants : List String
  participantInfo : List (String × PInfo)
  processed : List String
deriving DecidableEq, Repr

/-- A candidate period workbook: its file name, whether
`load_workbook`/parsing succeeds (a failure is caught and the file skipped),
its header row and its data rows.  Header cells are modelled as strings (a
non-string header never equals a required column name). -/
structure XFile where
  name : String
  parseOk : Bool
  headers : List String
  rows : List (List Cell)
deriving DecidableEq, Repr

/-- The written summary workbook: header row and data rows. -/
structure STable where
  headers : List String
  rows : List (List Cell)
deriving DecidableEq, Repr

/-- The four column indices looked up by header name.  In the ingestor the
fourth is the per-period score column; in the summary reader it is the total
column (both are named `'总分'`). -/
structure ColIdx where
  nameIdx : Nat
  phoneIdx : Nat
  idIdx : Nat
  scoreIdx : Nat
deriving DecidableEq, Repr

/-- `max(name_idx, phone_idx, id_idx, score_idx)`. -/
def maxIdx (ci : ColIdx) : Nat :=
  max (max ci.nameIdx ci.phoneIdx) (max ci.idIdx ci.scoreIdx)

/-- `required_columns`, line 70 (and the reader's four `headers.index` calls). -/
def requiredCols : List String := ["年级专业班级姓名", "手机号码", "学号", "总分"]

/-- Lines 219-222 of the source: collect the headers that start with `'S'`
and whose position is none of the four fixed column indices; `i` is the
position of the first header of `hs` in the full header row. -/
def periodColsAux (fixed : List Nat) : Nat → List String → List String
  | _, [] => []
  | i, h :: rest =>
    if startsWithS h && decide (i ∉ fixed) then h :: periodColsAux fixed (i + 1) rest
    else periodColsAux fixed (i + 1) rest

/-- The period columns of a summary header row (reader lines 218-222). -/
def summaryPeriodCols (headers : List String) : List String :=
  periodColsAux
    [headers.indexOf "年级专业班级姓名", headers.indexOf "手机号码",
     headers.indexOf "学号", headers.indexOf "总分"] 0 headers

/-- One data row of the existing summary (reader lines 227-250): skip short
rows and rows whose coerced identifier is the empty string, otherwise
(re)assign the participant's record with scores read from the period columns. -/
def readRow (hs : List String) (ci : ColIdx) (pcols : List String)
    (data : List (String × PData)) (row : List Cell) : List (String × PData) :=
  if row.length ≤ maxIdx ci then data
  else
    let name := row.getD ci.nameIdx Cell.empty
    let phone := row.getD ci.phoneIdx Cell.empty
    let sid := pyStr (row.getD ci.idIdx Cell.empty)
    if sid = "" then data
    else
      let scores := pcols.foldl (fun acc p =>
        let pidx := hs.indexOf p
        if pidx < row.length then
          let sc := row.getD pidx Cell.empty
          aset acc p (if sc = Cell.empty then Cell.num 0 else sc)
        else acc) []
      aset data sid { info := ⟨name, phone⟩, scores := scores }

/-- `read_existing_summary` (lines 192-257): if any required column is
missing the load degrades to the empty state, otherwise return the student
data and the list of period columns. -/
def readExistingSummary (t : STable) : List (String × PData) × List String :=
  if requiredCols.any (fun c => decide (c ∉ t.headers)) then ([], [])
  else
    let ci : ColIdx :=
      ⟨t.headers.indexOf "年级专业班级姓名", t.headers.indexOf "手机号码",
       t.headers.indexOf "学号", t.headers.indexOf "总分"⟩
    let pcols := summaryPeriodCols t.headers
    (t.rows.foldl (readRow t.headers ci pcols) [], pcols)

/-- One data row of a candidate file (lines 85-115): skip short rows, coerce
the identifier with `str(...)`, coerce an empty score cell to `0`, skip rows
whose coerced identifier is the empty string, then record the participant
(identity attributes only at first sighting) and the score for this period. -/
def processRow (ci : ColIdx) (pk : String) (st : IngestState) (row : List Cell) :
    IngestState :=
  if row.length ≤ maxIdx ci then st
  else
    let name := row.getD ci.nameIdx Cell.empty
    let phone := row.getD ci.phoneIdx Cell.empty
    let sid := pyStr (row.getD ci.idIdx Cell.empty)
    let rawScore := row.getD ci.scoreIdx Cell.empty
    let score := if rawScore = Cell.empty then Cell.num 0 else rawScore
    if sid = "" then st
    else
      { allData :=
          match alookup st.allData sid with
          | some pd => aset st.allData sid { pd with scores := aset pd.scores pk score }
          | none => aset st.allData sid { info := ⟨name, phone⟩, scores := [(pk, score)] }
        participants :=
          if sid ∈ st.participants then st.participants else st.participants ++ [sid]
        participantInfo :=
          match alookup st.participantInfo sid with
          | some _ => st.participantInfo
          | none => aset st.participantInfo sid ⟨name, phone⟩
        processed := st.processed }

/-- One candidate file (lines 49-122): skip it if its period key is already
known and the run is in update mode; skip it if opening/parsing raised; reject
it if a required column is missing; otherwise fold its data rows into the
state and record the file as consumed. -/
def processFile (updateMode : Bool) (existingPeriods : List String)
    (st : IngestState) (f : XFile) : IngestState :=
  let pk := periodLabel f.name
  if periodLabel f.name ∈ existingPeriods ∧ updateMode then st
  else if !f.parseOk then st
  else if requiredCols.any (fun c => decide (c ∉ f.headers)) then st
  else
    let ci : ColIdx :=
      ⟨f.headers.indexOf "年级专业班级姓名", f.headers.indexOf "手机号码",
       f.headers.indexOf "学号", f.headers.indexOf "总分"⟩
    let st' := f.rows.foldl (processRow ci pk) st
    { st' with processed := st'.processed ++ [f.name] }

/-- The fold of `processFile` over the candidate files. -/
def ingestAll (updateMode : Bool) (existingPeriods : List String)
    (st : IngestState) (files : List XFile) : IngestState :=
  files.foldl (processFile updateMode existingPeriods) st

/-- Lines 28-32: the prior data and period list, loaded only in update mode
and only when the summary file exists. -/
def initPeriods (updateMode : Bool) (summary : Option STable) :
    List (String × PData) × List String :=
  match summary, updateMode with
  | some t, true => readExistingSummary t
  | _, _ => ([], [])

/-- Lines 35-45: seed `all_data`, `all_participants` and `participant_info`
from the loaded data. -/
def initState (ed : List (String × PData)) : IngestState :=
  { allData := ed
    participants := ed.map (fun p => p.1)
    participantInfo := ed.map (fun p => (p.1, p.2.info))
    processed := [] }

/-- The ingestion state at the end of the file loop. -/
def runIngestState (files : List XFile) (updateMode : Bool)
    (summary : Option STable) : IngestState :=
  ingestAll updateMode (initPeriods updateMode summary).2
    (initState (initPeriods updateMode summary).1) files

/-- Lines 132-135: `sorted(set(existing_periods + [labels of processed files]))`. -/
def allPeriodsOf (existingPeriods : List String) (processedNames : List String) :
    List String :=
  ((existingPeriods ++ processedNames.map periodLabel).dedup).insertionSort
    (fun a b => strLe a b = true)

/-- The full sorted period list of a run. -/
def runPeriods (files : List XFile) (updateMode : Bool) (summary : Option STable) :
    List String :=
  allPeriodsOf (initPeriods updateMode summary).2 (runIngestState files updateMode summary).processed

/-- The score dict the builder reads for a participant, lines 155-157:
`all_data.get(sid, {})` then `.get('scores', {})`. -/
def scoresOf (st : IngestState) (sid : String) : List (String × Cell) :=
  match alookup st.allData sid with
  | some pd => pd.scores
  | none => []

/-- `total_score` accumulation over the listed score cells (lines 161-166):
Python `0 + v` succeeds only on numbers, so a non-numeric stored score raises
and the run writes nothing — modelled by `none`. -/
def sumCells (cs : List Cell) : Option Int :=
  cs.foldl (fun acc c =>
    match acc, c with
    | some a, Cell.num n => some (a + n)
    | _, _ => none) (some 0)

/-- One output row before sorting (lines 154-169). -/
structure SRow where
  sname : Cell
  sphone : Cell
  sid : String
  sscores : List Cell
  stotal : Int
deriving DecidableEq, Repr

/-- Build one participant's output row: identity from `participant_info` with
the `['未知', '未知']` fallback, one score cell per period (missing → `0`),
and the total. -/
def buildRow (aps : List String) (st : IngestState) (sid : String) : Option SRow :=
  let inf := (alookup st.participantInfo sid).getD ⟨Cell.str "未知", Cell.str "未知"⟩
  let scores := aps.map (fun p => (alookup (scoresOf st sid) p).getD (Cell.num 0))
  (sumCells scores).map (fun tot => ⟨inf.pname, inf.pphone, sid, scores, tot⟩)

/-- `result_data`: the rows for all participants in iteration order; `none`
if any row's total raises. -/
def buildRows (aps : List String) (st : IngestState) : List String → Option (List SRow)
  | [] => some []
  | sid :: rest =>
    match buildRow aps st sid, buildRows aps st rest with
    | some r, some rs => some (r :: rs)
    | _, _ => none

/-- A row as written to the sheet: `[name, phone, sid] + scores + [total]`
(the identifier is written back as a string, the total as a number). -/
def serializeRow (r : SRow) : List Cell :=
  r.sname :: r.sphone :: Cell.str r.sid :: (r.sscores ++ [Cell.num r.stotal])

/-- Line 172: `result_data.sort(key=lambda x: x[-1], reverse=True)` — a stable
sort descending by total; a stable sort's output is unique, so insertion sort
with `total b ≤ total a` models it exactly. -/
def sortRows (rs : List SRow) : List SRow :=
  rs.insertionSort (fun a b => b.stotal ≤ a.stotal)

/-- The output header row, lines 143-145: the three fixed identity columns,
one column per period, then the total column. -/
def outHeaders (aps : List String) : List String :=
  ["年级专业班级姓名", "手机号码", "学号"] ++ aps ++ ["总分"]

/-- `process_activity_data` (lines 10-189): returns the summary table written
at line 183, or `none` when the run returns without writing (no candidate
files, nothing consumed, or a raise while totalling). -/
def processActivityData (files : List XFile) (updateMode : Bool)
    (summary : Option STable) : Option STable :=
  if files.isEmpty then none
  else
    let st := runIngestState files updateMode summary
    if st.processed.isEmpty then none
    else
      (buildRows (runPeriods files updateMode summary) st st.participants).map
        (fun rows =>
          { headers := outHeaders (runPeriods files updateMode summary)
            rows := (sortRows rows).map serializeRow })

/-! ### Association-list lemmas -/

theorem alookup_aset_self {α : Type} (l : List (String × α)) (k : String) (v : α) :
    alookup (aset l k v) k = some v := by
  induction l with
  | nil => simp [aset, alookup]
  | cons p rest ih =>
    by_cases h : p.1 = k
    · simp [aset, h, alookup]
    · simp [aset, h, alookup, ih]

theorem alookup_aset_ne {α : Type} (l : List (String × α)) (k k' : String) (v : α)
    (h : k ≠ k') : alookup (aset l k v) k' = alookup l k' := by
  induction l with
  | nil => simp [aset, alookup, h]
  | cons p rest ih =>
    by_cases hp : p.1 = k
    · simp [aset, hp, alookup, h]
    · simp [aset, hp, alookup, ih]

theorem mem_aset {α : Type} (l : List (String × α)) (k : String) (v : α)
    (p : String × α) (hp : p ∈ aset l k v) : p = (k, v) ∨ p ∈ l := by
  induction l with
  | nil => simpa [aset] using hp
  | cons q rest ih =>
    by_cases hq : q.1 = k
    · simp only [aset, if_pos hq, List.mem_cons] at hp
      rcases hp with h | h
      · exact Or.inl h
      · exact Or.inr (List.mem_cons_of_mem _ h)
    · simp only [aset, if_neg hq, List.mem_cons] at hp
      rcases hp with h | h
      · exact Or.inr (h ▸ List.mem_cons_self _ _)
      · rcases ih h with h' | h'
        · exact Or.inl h'
        · exact Or.inr (List.mem_cons_of_mem _ h')

/-! ### Which files a run consumes -/

/-- A candidate file is consumed (reaches line 117, `processed_files.append`)
iff it is not skipped as an already-known period, opens successfully, and has
all four required columns. -/
def consumes (u : Bool) (ep : List String) (f : XFile) : Bool :=
  decide (¬(periodLabel f.name ∈ ep ∧ u)) && f.parseOk &&
    !(requiredCols.any (fun c => decide (c ∉ f.headers)))


theorem consumes_false_skip {u : Bool} {ep : List String} {f : XFile}
    (h : periodLabel f.name ∈ ep ∧ u = true) : consumes u ep f = false := by
  unfold consumes
  rw [decide_eq_false (by simpa using h)]
  rfl

theorem consumes_false_parse {u : Bool} {ep : List String} {f : XFile}
    (h : f.parseOk = false) : consumes u ep f = false := by
  unfold consumes
  rw [h]
  simp

theorem consumes_false_missing {u : Bool} {ep : List String} {f : XFile}
    (h : (requiredCols.any (fun c => decide (c ∉ f.headers))) = true) :
    consumes u ep f = false := by
  unfold consumes
  rw [h]
  simp

theorem consumes_true {u : Bool} {ep : List String} {f : XFile}
    (h1 : ¬(periodLabel f.name ∈ ep ∧ u = true)) (h2 : f.parseOk = true)
    (h3 : (requiredCols.any (fun c => decide (c ∉ f.headers))) = false) :
    consumes u ep f = true := by
  unfold consumes
  rw [decide_eq_true h1, h2, h3]
  rfl

theorem processFile_not_consumed {u : Bool} {ep : List String} {f : XFile}
    (h : consumes u ep f = false) (st : IngestState) : processFile u ep st f = st := by
  unfold processFile
  by_cases h1 : periodLabel f.name ∈ ep ∧ u = true
  · rw [if_pos h1]
  · rw [if_neg h1]
    by_cases h2 : f.parseOk
    · by_cases h3 : (requiredCols.any (fun c => decide (c ∉ f.headers))) = true
      · rw [if_neg (by simp [h2]), if_pos h3]
      · exfalso
        rw [consumes_true h1 h2 (by simpa using h3)] at h
        exact absurd h (by decide)
    · have h2' : f.parseOk = false := by simpa using h2
      rw [if_pos (by simp [h2'])]

theorem processRow_processed (ci : ColIdx) (pk : String) (st : IngestState)
    (row : List Cell) : (processRow ci pk st row).processed = st.processed := by
  unfold processRow
  split
  · rfl
  · dsimp only
    split
    · rfl
    · rfl

theorem rowsFold_processed (ci : ColIdx) (pk : String) (rows : List (List Cell)) :
    ∀ st : IngestState, (rows.foldl (processRow ci pk) st).processed = st.processed := by
  induction rows with
  | nil => intro st; rfl
  | cons r rest ih => intro st; rw [List.foldl_cons, ih, processRow_processed]

theorem processFile_processed (u : Bool) (ep : List String) (st : IngestState)
    (f : XFile) :
    (processFile u ep st f).processed =
      st.processed ++ (if consumes u ep f = true then [f.name] else []) := by
  by_cases h1 : periodLabel f.name ∈ ep ∧ u = true
  · rw [consumes_false_skip h1]
    unfold processFile
    rw [if_pos h1]
    simp
  · by_cases h2 : f.parseOk
    · by_cases h3 : (requiredCols.any (fun c => decide (c ∉ f.headers))) = true
      · rw [consumes_false_missing h3]
        unfold processFile
        rw [if_neg h1, if_neg (by simp [h2]), if_pos h3]
        simp
      · rw [consumes_true h1 h2 (by simpa using h3)]
        unfold processFile
        rw [if_neg h1, if_neg (by simp [h2]), if_neg h3]
        simp [rowsFold_processed]
    · have h2' : f.parseOk = false := by simpa using h2
      rw [consumes_false_parse h2']
      unfold processFile
      rw [if_neg h1, if_pos (by simp [h2'])]
      simp

theorem ingestAll_processed (u : Bool) (ep : List String) (files : List XFile) :
    ∀ st : IngestState,
      (ingestAll u ep st files).processed =
        st.processed ++ (files.filter (consumes u ep)).map (fun f => f.name) := by
  induction files with
  | nil => intro st; simp [ingestAll]
  | cons f rest ih =>
    intro st
    show (ingestAll u ep (processFile u ep st f) rest).processed = _
    rw [ih, processFile_processed]
    by_cases h : consumes u ep f = true <;> simp [h, List.filter_cons]

theorem ingestAll_append (u : Bool) (ep : List String) (st : IngestState)
    (l₁ l₂ : List XFile) :
    ingestAll u ep st (l₁ ++ l₂) = ingestAll u ep (ingestAll u ep st l₁) l₂ :=
  List.foldl_append _ _ _ _

theorem ingestAll_inert {u : Bool} {ep : List String} {files : List XFile}
    (h : ∀ f ∈ files, consumes u ep f = false) :
    ∀ st : IngestState, ingestAll u ep st files = st := by
  induction files with
  | nil => intro st; rfl
  | cons f rest ih =>
    intro st
    show ingestAll u ep (processFile u ep st f) rest = st
    rw [processFile_not_consumed (h f (List.mem_cons_self _ _)),
      ih (fun g hg => h g (List.mem_cons_of_mem _ hg))]

/-! ### First-write-wins stability of `participant_info` -/

theorem processRow_participantInfo_stable (ci : ColIdx) (pk : String)
    (st : IngestState) (row : List Cell) {sid : String} {inf : PInfo}
    (h : alookup st.participantInfo sid = some inf) :
    alookup (processRow ci pk st row).participantInfo sid = some inf := by
  unfold processRow
  split
  · exact h
  · dsimp only
    split
    · exact h
    · dsimp only
      rcases hl : alookup st.participantInfo (pyStr (row.getD ci.idIdx Cell.empty)) with _ | v
      · simp only [hl]
        have hne : pyStr (row.getD ci.idIdx Cell.empty) ≠ sid := by
          intro he
          rw [he, h] at hl
          cases hl
        rw [alookup_aset_ne _ _ _ _ hne]
        exact h
      · simp only [hl]
        exact h

theorem rowsFold_participantInfo_stable (ci : ColIdx) (pk : String)
    (rows : List (List Cell)) {sid : String} {inf : PInfo} :
    ∀ st : IngestState, alookup st.participantInfo sid = some inf →
      alookup ((rows.foldl (processRow ci pk) st)).participantInfo sid = some inf := by
  induction rows with
  | nil => intro st h; exact h
  | cons r rest ih =>
    intro st h
    rw [List.foldl_cons]
    exact ih _ (processRow_participantInfo_stable _ _ _ _ h)

theorem processFile_participantInfo_stable (u : Bool) (ep : List String)
    (st : IngestState) (f : XFile) {sid : String} {inf : PInfo}
    (h : alookup st.participantInfo sid = some inf) :
    alookup (processFile u ep st f).participantInfo sid = some inf := by
  unfold processFile
  split
  · exact h
  · split
    · exact h
    · split
      · exact h
      · dsimp only
        exact rowsFold_participantInfo_stable _ _ _ _ h

theorem ingestAll_participantInfo_stable (u : Bool) (ep : List String)
    (files : List XFile) {sid : String} {inf : PInfo} :
    ∀ st : IngestState, alookup st.participantInfo sid = some inf →
      alookup (ingestAll u ep st files).participantInfo sid = some inf := by
  induction files with
  | nil => intro st h; exact h
  | cons f rest ih =>
    intro st h
    exact ih _ (processFile_participantInfo_stable _ _ _ _ h)

/-! ### The builder -/

/-- The numeric value of a stored score cell (`0` only for a cell Python's
`+` would not accept, which `sumCells` rules out). -/
def cellIntD : Cell → Int
  | Cell.num n => n
  | _ => 0

/-- The claim-side reading of a score dict: the stored value at `p`, a
missing entry counting as `0`. -/
def lookupScoreInt (m : List (String × Cell)) (p : String) : Int :=
  cellIntD ((alookup m p).getD (Cell.num 0))

theorem sumFold_none (cs : List Cell) :
    (cs.foldl (fun acc c =>
      match acc, c with
      | some a, Cell.num n => some (a + n)
      | _, _ => none) none) = none := by
  induction cs with
  | nil => rfl
  | cons c rest ih => cases c <;> simpa using ih

theorem sumFold_some (cs : List Cell) :
    ∀ (a t : Int),
      (cs.foldl (fun acc c =>
        match acc, c with
        | some x, Cell.num n => some (x + n)
        | _, _ => none) (some a)) = some t →
      (∀ c ∈ cs, ∃ n, c = Cell.num n) ∧
        t = cs.foldl (fun x c => x + cellIntD c) a := by
  induction cs with
  | nil =>
    intro a t h
    simp only [List.foldl_nil, Option.some.injEq] at h
    simp [h]
  | cons c rest ih =>
    intro a t h
    cases c with
    | num n =>
      rw [List.foldl_cons] at h
      obtain ⟨h1, h2⟩ := ih (a + n) t h
      refine ⟨?_, ?_⟩
      · intro c hc
        rcases List.mem_cons.mp hc with rfl | hc'
        · exact ⟨n, rfl⟩
        · exact h1 c hc'
      · simpa [cellIntD] using h2
    | empty =>
      rw [List.foldl_cons] at h
      have h' : (rest.foldl (fun acc c =>
        match acc, c with
        | some x, Cell.num n => some (x + n)
        | _, _ => none) none) = some t := h
      rw [sumFold_none] at h'
      cases h'
    | str s =>
      rw [List.foldl_cons] at h
      have h' : (rest.foldl (fun acc c =>
        match acc, c with
        | some x, Cell.num n => some (x + n)
        | _, _ => none) none) = some t := h
      rw [sumFold_none] at h'
      cases h' 

theorem sumCells_some {cs : List Cell} {t : Int} (h : sumCells cs = some t) :
    (∀ c ∈ cs, ∃ n, c = Cell.num n) ∧
      t = cs.foldl (fun x c => x + cellIntD c) 0 :=
  sumFold_some cs 0 t h

theorem buildRow_some {aps : List String} {st : IngestState} {sid : String}
    {r : SRow} (h : buildRow aps st sid = some r) :
    r.sid = sid ∧
    r.sname = ((alookup st.participantInfo sid).getD ⟨Cell.str "未知", Cell.str "未知"⟩).pname ∧
    r.sphone = ((alookup st.participantInfo sid).getD ⟨Cell.str "未知", Cell.str "未知"⟩).pphone ∧
    r.sscores = aps.map (fun p => (alookup (scoresOf st sid) p).getD (Cell.num 0)) ∧
    sumCells r.sscores = some r.stotal := by
  unfold buildRow at h
  dsimp only at h
  rcases hs : sumCells (List.map (fun p => (alookup (scoresOf st sid) p).getD (Cell.num 0)) aps) with _ | tot
  · rw [hs] at h
    cases h
  · rw [hs] at h
    simp only [Option.map_some'] at h
    cases h
    exact ⟨rfl, rfl, rfl, rfl, hs⟩

theorem buildRows_mem {aps : List String} {st : IngestState} :
    ∀ {sids : List String} {rows : List SRow}, buildRows aps st sids = some rows →
      ∀ r ∈ rows, ∃ sid ∈ sids, buildRow aps st sid = some r := by
  intro sids
  induction sids with
  | nil =>
    intro rows h r hr
    cases h
    cases hr
  | cons sid rest ih =>
    intro rows h r hr
    unfold buildRows at h
    rcases h1 : buildRow aps st sid with _ | r0
    · rw [h1] at h
      cases h
    · rw [h1] at h
      rcases h2 : buildRows aps st rest with _ | rs
      · rw [h2] at h
        cases h
      · rw [h2] at h
        simp only [Option.some.injEq] at h
        subst h
        rcases List.mem_cons.mp hr with rfl | hr'
        · exact ⟨sid, List.mem_cons_self _ _, h1⟩
        · obtain ⟨sid', hm, hb⟩ := ih h2 r hr'
          exact ⟨sid', List.mem_cons_of_mem _ hm, hb⟩

/-! ### Characterizing the run result -/

theorem pad_none {files : List XFile} {u : Bool} {s : Option STable}
    (h : (runIngestState files u s).processed = []) :
    processActivityData files u s = none := by
  unfold processActivityData
  by_cases h1 : files.isEmpty
  · rw [if_pos h1]
  · rw [if_neg h1]
    simp [h]

theorem pad_some {files : List XFile} {u : Bool} {s : Option STable} {t : STable}
    (h : processActivityData files u s = some t) :
    ∃ rows, buildRows (runPeriods files u s) (runIngestState files u s)
        (runIngestState files u s).participants = some rows ∧
      t.headers = outHeaders (runPeriods files u s) ∧
      t.rows = (sortRows rows).map serializeRow := by
  unfold processActivityData at h
  by_cases h1 : files.isEmpty
  · rw [if_pos h1] at h
    cases h
  · rw [if_neg h1] at h
    dsimp only at h
    by_cases h2 : (runIngestState files u s).processed.isEmpty
    · rw [if_pos h2] at h
      cases h
    · rw [if_neg h2] at h
      rcases h3 : buildRows (runPeriods files u s) (runIngestState files u s)
          (runIngestState files u s).participants with _ | rows
      · rw [h3] at h
        cases h
      · rw [h3] at h
        simp only [Option.map_some', Option.some.injEq] at h
        subst h
        exact ⟨rows, rfl, rfl, rfl⟩

/-! ### Every stored period key is a known period -/

/-- Claim-side invariant: every period key occurring in any participant's
score dict belongs to `ps`. -/
def ScoresSub (data : List (String × PData)) (ps : List String) : Prop :=
  ∀ sid pd, alookup data sid = some pd → ∀ q c, (q, c) ∈ pd.scores → q ∈ ps

theorem ScoresSub_nil (ps : List String) : ScoresSub [] ps := by
  intro sid pd hl
  simp [alookup] at hl

theorem ScoresSub_mono {data : List (String × PData)} {ps qs : List String}
    (h : ScoresSub data ps) (hm : ∀ p ∈ ps, p ∈ qs) : ScoresSub data qs :=
  fun sid pd hl q c hqc => hm q (h sid pd hl q c hqc)

theorem scoresFoldKeys (hs : List String) (row : List Cell) (ps : List String) :
    ∀ (pcols : List String) (acc : List (String × Cell)),
      (∀ qc ∈ acc, qc.1 ∈ ps) → (∀ p ∈ pcols, p ∈ ps) →
      ∀ qc ∈ pcols.foldl (fun acc p =>
        if hs.indexOf p < row.length then
          aset acc p (if row.getD (hs.indexOf p) Cell.empty = Cell.empty then Cell.num 0
            else row.getD (hs.indexOf p) Cell.empty)
        else acc) acc, qc.1 ∈ ps := by
  intro pcols
  induction pcols with
  | nil => intro acc hacc _ qc hqc; exact hacc qc hqc
  | cons p rest ih =>
    intro acc hacc hp qc hqc
    rw [List.foldl_cons] at hqc
    refine ih _ ?_ (fun q hq => hp q (List.mem_cons_of_mem _ hq)) qc hqc
    intro qc' hqc'
    by_cases hi : hs.indexOf p < row.length
    · rw [if_pos hi] at hqc'
      rcases mem_aset _ _ _ _ hqc' with rfl | hm
      · exact hp p (List.mem_cons_self _ _)
      · exact hacc _ hm
    · rw [if_neg hi] at hqc'
      exact hacc _ hqc'

theorem readRow_ScoresSub {data : List (String × PData)} {ps pcols : List String}
    (hs : List String) (ci : ColIdx) (row : List Cell)
    (h : ScoresSub data ps) (hp : ∀ p ∈ pcols, p ∈ ps) :
    ScoresSub (readRow hs ci pcols data row) ps := by
  unfold readRow
  split
  · exact h
  · dsimp only
    split
    · exact h
    · intro sid pd hl q c hqc
      by_cases he : pyStr (row.getD ci.idIdx Cell.empty) = sid
      · rw [he, alookup_aset_self] at hl
        cases hl
        exact scoresFoldKeys hs row ps pcols [] (by intro qc h0; cases h0) hp (q, c) hqc
      · rw [alookup_aset_ne _ _ _ _ he] at hl
        exact h sid pd hl q c hqc

theorem readRowsFold_ScoresSub {ps pcols : List String} (hs : List String)
    (ci : ColIdx) (rows : List (List Cell)) (hp : ∀ p ∈ pcols, p ∈ ps) :
    ∀ data : List (String × PData), ScoresSub data ps →
      ScoresSub (rows.foldl (readRow hs ci pcols) data) ps := by
  induction rows with
  | nil => intro data h; exact h
  | cons r rest ih =>
    intro data h
    rw [List.foldl_cons]
    exact ih _ (readRow_ScoresSub hs ci r h hp)

theorem readExistingSummary_ScoresSub (t : STable) :
    ScoresSub (readExistingSummary t).1 (readExistingSummary t).2 := by
  unfold readExistingSummary
  split
  · exact ScoresSub_nil _
  · dsimp only
    exact readRowsFold_ScoresSub _ _ _ (fun p hp => hp) _ (ScoresSub_nil _)

theorem processRow_ScoresSub {st : IngestState} {ps : List String} {pk : String}
    (ci : ColIdx) (row : List Cell)
    (h : ScoresSub st.allData ps) (hpk : pk ∈ ps) :
    ScoresSub (processRow ci pk st row).allData ps := by
  unfold processRow
  split
  · exact h
  · dsimp only
    split
    · exact h
    · dsimp only
      intro sid pd hl q c hqc
      rcases h0 : alookup st.allData (pyStr (row.getD ci.idIdx Cell.empty)) with _ | pd0
      · simp only [h0] at hl
        by_cases he : pyStr (row.getD ci.idIdx Cell.empty) = sid
        · rw [he, alookup_aset_self] at hl
          cases hl
          cases hqc with
          | head => exact hpk
          | tail _ h9 => cases h9
        · rw [alookup_aset_ne _ _ _ _ he] at hl
          exact h sid pd hl q c hqc
      · simp only [h0] at hl
        by_cases he : pyStr (row.getD ci.idIdx Cell.empty) = sid
        · rw [he, alookup_aset_self] at hl
          cases hl
          rcases mem_aset _ _ _ _ hqc with heq | hm
          · cases heq
            exact hpk
          · exact h _ pd0 (he ▸ h0) q c hm
        · rw [alookup_aset_ne _ _ _ _ he] at hl
          exact h sid pd hl q c hqc

theorem rowsFold_ScoresSub {ps : List String} {pk : String} (ci : ColIdx)
    (rows : List (List Cell)) (hpk : pk ∈ ps) :
    ∀ st : IngestState, ScoresSub st.allData ps →
      ScoresSub ((rows.foldl (processRow ci pk) st)).allData ps := by
  induction rows with
  | nil => intro st h; exact h
  | cons r rest ih =>
    intro st h
    rw [List.foldl_cons]
    exact ih _ (processRow_ScoresSub ci r h hpk)

theorem processFile_ScoresSub {u : Bool} {ep ps : List String} {st : IngestState}
    {f : XFile} (h : ScoresSub st.allData ps)
    (hpk : consumes u ep f = true → periodLabel f.name ∈ ps) :
    ScoresSub (processFile u ep st f).allData ps := by
  by_cases hc : consumes u ep f = true
  · unfold processFile
    split
    · exact h
    · split
      · exact h
      · split
        · exact h
        · exact rowsFold_ScoresSub _ _ (hpk hc) _ h
  · rw [processFile_not_consumed (by simpa using hc)]
    exact h

theorem ingestAll_ScoresSub {u : Bool} {ep ps : List String} {files : List XFile}
    (hpk : ∀ f ∈ files, consumes u ep f = true → periodLabel f.name ∈ ps) :
    ∀ st : IngestState, ScoresSub st.allData ps →
      ScoresSub (ingestAll u ep st files).allData ps := by
  induction files with
  | nil => intro st h; exact h
  | cons f rest ih =>
    intro st h
    show ScoresSub (ingestAll u ep (processFile u ep st f) rest).allData ps
    exact ih (fun g hg => hpk g (List.mem_cons_of_mem _ hg)) _
      (processFile_ScoresSub h (hpk f (List.mem_cons_self _ _)))

theorem mem_allPeriodsOf {p : String} {ep names : List String} :
    p ∈ allPeriodsOf ep names ↔ p ∈ ep ∨ ∃ n ∈ names, periodLabel n = p := by
  unfold allPeriodsOf
  rw [List.mem_insertionSort, List.mem_dedup, List.mem_append, List.mem_map]

theorem initPeriods_ScoresSub (u : Bool) (s : Option STable) :
    ScoresSub (initPeriods u s).1 (initPeriods u s).2 := by
  unfold initPeriods
  rcases s with _ | t
  · exact ScoresSub_nil _
  · cases u
    · exact ScoresSub_nil _
    · exact readExistingSummary_ScoresSub t

theorem runIngest_ScoresSub (files : List XFile) (u : Bool) (s : Option STable) :
    ScoresSub (runIngestState files u s).allData (runPeriods files u s) := by
  unfold runIngestState
  refine ingestAll_ScoresSub ?_ _ ?_
  · intro f hf hc
    rw [runPeriods]
    rw [mem_allPeriodsOf]
    refine Or.inr ⟨f.name, ?_, rfl⟩
    unfold runIngestState
    rw [ingestAll_processed]
    show f.name ∈ [] ++ _
    rw [List.nil_append, List.mem_map]
    exact ⟨f, List.mem_filter.mpr ⟨hf, hc⟩, rfl⟩
  · show ScoresSub (initPeriods u s).1 _
    refine ScoresSub_mono (initPeriods_ScoresSub u s) ?_
    intro p hp
    rw [runPeriods, mem_allPeriodsOf]
    exact Or.inl hp

/-! ### The period columns of a written summary header row -/

theorem startsWithS_periodLabel (n : String) : startsWithS (periodLabel n) = true := rfl

theorem startsWithS_of_mem_periodColsAux {F : List Nat} {h : String} :
    ∀ {i : Nat} {hs : List String}, h ∈ periodColsAux F i hs → startsWithS h = true := by
  intro i hs
  induction hs generalizing i with
  | nil => intro hm; cases hm
  | cons hd rest ih =>
    intro hm
    unfold periodColsAux at hm
    by_cases hc : (startsWithS hd && decide (i ∉ F)) = true
    · rw [if_pos hc] at hm
      rcases List.mem_cons.mp hm with rfl | hm'
      · exact (Bool.and_eq_true _ _).mp hc |>.1
      · exact ih hm'
    · rw [if_neg hc] at hm
      exact ih hm

theorem mem_periodColsAux {F : List Nat} {h : String} :
    ∀ {hs : List String} {i : Nat},
      h ∈ periodColsAux F i hs ↔
        ∃ k, hs.get? k = some h ∧ startsWithS h = true ∧ (i + k) ∉ F := by
  intro hs
  induction hs with
  | nil =>
    intro i
    constructor
    · intro hm; cases hm
    · rintro ⟨k, hk, -, -⟩
      simp at hk
  | cons hd rest ih =>
    intro i
    unfold periodColsAux
    by_cases hc : (startsWithS hd && decide (i ∉ F)) = true
    · rw [if_pos hc]
      obtain ⟨hS, hF⟩ := (Bool.and_eq_true _ _).mp hc
      rw [decide_eq_true_eq] at hF
      constructor
      · intro hm
        rcases List.mem_cons.mp hm with rfl | hm'
        · exact ⟨0, rfl, hS, by simpa using hF⟩
        · obtain ⟨k, hk, hS', hF'⟩ := ih.mp hm'
          exact ⟨k + 1, by simpa using hk, hS',
            by rw [show i + (k + 1) = i + 1 + k by omega]; exact hF'⟩
      · rintro ⟨k, hk, hS', hF'⟩
        cases k with
        | zero =>
          simp only [List.get?_cons_zero, Option.some.injEq] at hk
          subst hk
          exact List.mem_cons_self _ _
        | succ k' =>
          refine List.mem_cons_of_mem _ (ih.mpr ⟨k', by simpa using hk, hS', ?_⟩)
          rw [show i + 1 + k' = i + (k' + 1) by omega]
          exact hF'
    · rw [if_neg hc]
      constructor
      · intro hm
        obtain ⟨k, hk, hS', hF'⟩ := ih.mp hm
        exact ⟨k + 1, by simpa using hk, hS', by rw [show i + (k + 1) = i + 1 + k by omega]; exact hF'⟩
      · rintro ⟨k, hk, hS', hF'⟩
        cases k with
        | zero =>
          simp only [List.get?_cons_zero, Option.some.injEq] at hk
          subst hk
          exfalso
          rw [hS'] at hc
          simp only [Bool.true_and, decide_eq_true_eq] at hc
          exact hc (by simpa using hF')
        | succ k' =>
          refine ih.mpr ⟨k', by simpa using hk, hS', ?_⟩
          rw [show i + 1 + k' = i + (k' + 1) by omega]
          exact hF'

theorem periodColsAux_append (F : List Nat) (b : List String) :
    ∀ (a : List String) (i : Nat),
      periodColsAux F i (a ++ b) =
        periodColsAux F i a ++ periodColsAux F (i + a.length) b := by
  intro a
  induction a with
  | nil => intro i; simp [periodColsAux]
  | cons hd rest ih =>
    intro i
    simp only [List.cons_append, periodColsAux, List.append_eq, List.length_cons]
    by_cases hc : (startsWithS hd && decide (i ∉ F)) = true
    · rw [if_pos hc, if_pos hc, ih (i + 1)]
      simp only [List.cons_append]
      rw [show i + 1 + rest.length = i + (rest.length + 1) by omega]
    · rw [if_neg hc, if_neg hc, ih (i + 1)]
      rw [show i + 1 + rest.length = i + (rest.length + 1) by omega]

theorem periodColsAux_nilout (F : List Nat) :
    ∀ (l : List String) (i : Nat), (∀ p ∈ l, startsWithS p = false) →
      periodColsAux F i l = [] := by
  intro l
  induction l with
  | nil => intro i _; rfl
  | cons hd rest ih =>
    intro i hp
    unfold periodColsAux
    rw [if_neg, ih (i + 1) (fun p h => hp p (List.mem_cons_of_mem _ h))]
    rw [hp hd (List.mem_cons_self _ _)]
    simp

theorem periodColsAux_keepall (F : List Nat) :
    ∀ (l : List String) (i : Nat), (∀ p ∈ l, startsWithS p = true) →
      (∀ j ∈ F, j < i ∨ i + l.length ≤ j) →
      periodColsAux F i l = l := by
  intro l
  induction l with
  | nil => intro i _ _; rfl
  | cons hd rest ih =>
    intro i hp hF
    unfold periodColsAux
    rw [if_pos, ih (i + 1) (fun p h => hp p (List.mem_cons_of_mem _ h))]
    · intro j hj
      rcases hF j hj with h | h
      · exact Or.inl (by omega)
      · simp only [List.length_cons] at h
        exact Or.inr (by omega)
    · rw [hp hd (List.mem_cons_self _ _)]
      simp only [Bool.true_and, decide_eq_true_eq]
      intro hin
      rcases hF i hin with h | h
      · omega
      · simp only [List.length_cons] at h
        omega

theorem outHeaders_indexOf (aps : List String)
    (hS : ∀ p ∈ aps, startsWithS p = true) :
    (outHeaders aps).indexOf "年级专业班级姓名" = 0 ∧
    (outHeaders aps).indexOf "手机号码" = 1 ∧
    (outHeaders aps).indexOf "学号" = 2 ∧
    (outHeaders aps).indexOf "总分" = aps.length + 3 := by
  have hT : "总分" ∉ aps := by
    intro hm
    have := hS _ hm
    simp [startsWithS] at this
  have hout : outHeaders aps =
      "年级专业班级姓名" :: "手机号码" :: "学号" :: (aps ++ ["总分"]) := rfl
  rw [hout]
  refine ⟨?_, ?_, ?_, ?_⟩
  · exact List.indexOf_cons_self _ _
  · rw [List.indexOf_cons_ne _ (by decide), List.indexOf_cons_self]
  · rw [List.indexOf_cons_ne _ (by decide), List.indexOf_cons_ne _ (by decide),
      List.indexOf_cons_self]
  · rw [List.indexOf_cons_ne _ (by decide), List.indexOf_cons_ne _ (by decide),
      List.indexOf_cons_ne _ (by decide), List.indexOf_append_of_not_mem hT,
      List.indexOf_cons_self]

theorem summaryPeriodCols_out (aps : List String)
    (hS : ∀ p ∈ aps, startsWithS p = true) :
    summaryPeriodCols (outHeaders aps) = aps := by
  obtain ⟨h0, h1, h2, h3⟩ := outHeaders_indexOf aps hS
  unfold summaryPeriodCols
  rw [h0, h1, h2, h3]
  have hsplit : outHeaders aps = ["年级专业班级姓名", "手机号码", "学号"] ++ (aps ++ ["总分"]) := rfl
  rw [hsplit, periodColsAux_append, periodColsAux_append]
  have l3 : (["年级专业班级姓名", "手机号码", "学号"] : List String).length = 3 := rfl
  rw [l3]
  have e1 : periodColsAux [0, 1, 2, aps.length + 3] 0
      ["年级专业班级姓名", "手机号码", "学号"] = [] :=
    periodColsAux_nilout _ _ _ (by decide)
  have e2 : periodColsAux [0, 1, 2, aps.length + 3] (0 + 3) aps = aps := by
    refine periodColsAux_keepall _ _ _ hS ?_
    intro j hj
    have hj' : j = 0 ∨ j = 1 ∨ j = 2 ∨ j = aps.length + 3 := by simpa using hj
    omega
  have e3 : periodColsAux [0, 1, 2, aps.length + 3] (0 + 3 + aps.length) ["总分"] = [] :=
    periodColsAux_nilout _ _ _ (by decide)
  rw [e1, e2, e3]
  simp

theorem requiredCols_out (aps : List String) :
    (requiredCols.any (fun c => decide (c ∉ outHeaders aps))) = false := by
  simp [requiredCols, outHeaders]

theorem readExistingSummary_out (aps : List String) (rows : List (List Cell))
    (hS : ∀ p ∈ aps, startsWithS p = true) :
    (readExistingSummary ⟨outHeaders aps, rows⟩).2 = aps := by
  unfold readExistingSummary
  rw [if_neg (by
    show ¬((requiredCols.any (fun c => decide (c ∉ outHeaders aps))) = true)
    rw [requiredCols_out]
    simp)]
  exact summaryPeriodCols_out aps hS

/-! ### The second run of an update-mode pair consumes nothing -/

theorem initPeriods_startsWithS {u : Bool} {s : Option STable} {p : String}
    (hp : p ∈ (initPeriods u s).2) : startsWithS p = true := by
  rcases s with _ | t
  · cases hp
  · cases u
    · cases hp
    · have hp' : p ∈ (readExistingSummary t).2 := hp
      unfold readExistingSummary at hp'
      by_cases hm : (requiredCols.any (fun c => decide (c ∉ t.headers))) = true
      · rw [if_pos hm] at hp'
        cases hp'
      · rw [if_neg hm] at hp'
        exact startsWithS_of_mem_periodColsAux hp'

theorem runPeriods_startsWithS {files : List XFile} {u : Bool} {s : Option STable}
    {p : String} (hp : p ∈ runPeriods files u s) : startsWithS p = true := by
  rw [runPeriods, mem_allPeriodsOf] at hp
  rcases hp with hp | ⟨n, -, rfl⟩
  · exact initPeriods_startsWithS hp
  · exact startsWithS_periodLabel n

theorem ep_sub_runPeriods {files : List XFile} {u : Bool} {s : Option STable}
    {p : String} (hp : p ∈ (initPeriods u s).2) : p ∈ runPeriods files u s := by
  rw [runPeriods, mem_allPeriodsOf]
  exact Or.inl hp

theorem label_mem_runPeriods {files : List XFile} {u : Bool} {s : Option STable}
    {f : XFile} (hf : f ∈ files)
    (hc : consumes u (initPeriods u s).2 f = true) :
    periodLabel f.name ∈ runPeriods files u s := by
  rw [runPeriods, mem_allPeriodsOf]
  refine Or.inr ⟨f.name, ?_, rfl⟩
  unfold runIngestState
  rw [ingestAll_processed]
  show f.name ∈ [] ++ _
  rw [List.nil_append, List.mem_map]
  exact ⟨f, List.mem_filter.mpr ⟨hf, hc⟩, rfl⟩

theorem consumes_false_elim {u : Bool} {ep : List String} {f : XFile}
    (h : consumes u ep f = false) :
    (periodLabel f.name ∈ ep ∧ u = true) ∨ f.parseOk = false ∨
      (requiredCols.any (fun c => decide (c ∉ f.headers))) = true := by
  by_cases h1 : periodLabel f.name ∈ ep ∧ u = true
  · exact Or.inl h1
  · by_cases h2 : f.parseOk = true
    · by_cases h3 : (requiredCols.any (fun c => decide (c ∉ f.headers))) = true
      · exact Or.inr (Or.inr h3)
      · rw [consumes_true h1 h2 (by simpa using h3)] at h
        exact absurd h (by decide)
    · exact Or.inr (Or.inl (by simpa using h2))

theorem secondRun_periods {files : List XFile} {s : Option STable} {t : STable}
    (h : processActivityData files true s = some t) :
    (initPeriods true (some t)).2 = runPeriods files true s := by
  obtain ⟨rows, -, hh, -⟩ := pad_some h
  show (readExistingSummary t).2 = _
  have ht : t = ⟨outHeaders (runPeriods files true s), t.rows⟩ := by
    cases t
    cases hh
    rfl
  rw [ht]
  exact readExistingSummary_out _ _ (fun p hp => runPeriods_startsWithS hp)

theorem secondRun_inert {files : List XFile} {s : Option STable} {t : STable}
    (h : processActivityData files true s = some t) :
    ∀ f ∈ files, consumes true (initPeriods true (some t)).2 f = false := by
  intro f hf
  rw [secondRun_periods h]
  by_cases hc : consumes true (initPeriods true s).2 f = true
  · exact consumes_false_skip ⟨label_mem_runPeriods hf hc, rfl⟩
  · rcases consumes_false_elim (by simpa using hc) with ⟨hm, -⟩ | hp | hmiss
    · exact consumes_false_skip ⟨ep_sub_runPeriods hm, rfl⟩
    · exact consumes_false_parse hp
    · exact consumes_false_missing hmiss

theorem secondRun_processed_nil {files : List XFile} {s : Option STable} {t : STable}
    (h : processActivityData files true s = some t) :
    (runIngestState files true (some t)).processed = [] := by
  unfold runIngestState
  rw [ingestAll_processed]
  have hnil : files.filter (consumes true (initPeriods true (some t)).2) = [] := by
    rw [List.filter_eq_nil]
    intro f hf
    rw [secondRun_inert h f hf]
    simp
  rw [hnil]
  rfl

theorem run_twice_none (files : List XFile) (s : Option STable) :
    processActivityData files true
      ((processActivityData files true s).elim s some) = none := by
  rcases hr : processActivityData files true s with _ | t
  · rw [show (Option.elim (none : Option STable) s some) = s from rfl]
    exact hr
  · rw [show (Option.elim (some t) s some) = some t from rfl]
    exact pad_none (secondRun_processed_nil hr)

/-! ### An unconsumed candidate file leaves the run unchanged -/

theorem ingestAll_middle_inert {u : Bool} {ep : List String} {f : XFile}
    (h : consumes u ep f = false) (pre post : List XFile) (st : IngestState) :
    ingestAll u ep st (pre ++ f :: post) = ingestAll u ep st (pre ++ post) := by
  rw [show pre ++ f :: post = (pre ++ [f]) ++ post by simp, ingestAll_append,
    ingestAll_append, ingestAll_append]
  show ingestAll u ep (processFile u ep (ingestAll u ep st pre) f) post = _
  rw [processFile_not_consumed h]

theorem runIngestState_middle_inert {u : Bool} {s : Option STable} {f : XFile}
    (h : consumes u (initPeriods u s).2 f = false) (pre post : List XFile) :
    runIngestState (pre ++ f :: post) u s = runIngestState (pre ++ post) u s := by
  unfold runIngestState
  rw [ingestAll_middle_inert h]

theorem pad_middle_inert {u : Bool} {s : Option STable} {f : XFile}
    (h : consumes u (initPeriods u s).2 f = false) (pre post : List XFile) :
    processActivityData (pre ++ f :: post) u s = processActivityData (pre ++ post) u s := by
  by_cases hpp : (pre ++ post).isEmpty = true
  · have hnil : pre ++ post = [] := by simpa using hpp
    obtain ⟨hpre, hpost⟩ := List.append_eq_nil.mp hnil
    subst hpre
    subst hpost
    rw [show ([] : List XFile) ++ f :: [] = [f] from rfl,
      show ([] : List XFile) ++ [] = [] from rfl,
      show processActivityData [] u s = none from rfl]
    refine pad_none ?_
    show (runIngestState [f] u s).processed = []
    unfold runIngestState
    rw [ingestAll_processed]
    have hfil : List.filter (consumes u (initPeriods u s).2) [f] = [] := by
      simp [List.filter_cons, h]
    rw [hfil]
    rfl
  · unfold processActivityData
    rw [show runPeriods (pre ++ f :: post) u s = runPeriods (pre ++ post) u s from by
        unfold runPeriods; rw [runIngestState_middle_inert h],
      runIngestState_middle_inert h]
    rw [if_neg hpp, if_neg (by
      rw [List.isEmpty_iff_length_eq_zero]
      simp)]

/-! ### The derived period label -/

theorem pyReplaceFuel_irrel (pat rep : List Char) :
    ∀ (fa : Nat), ∀ (fb : Nat) (s : List Char), s.length ≤ fa → s.length ≤ fb →
      pyReplaceFuel pat rep fa s = pyReplaceFuel pat rep fb s := by
  intro fa
  induction fa with
  | zero =>
    intro fb s ha _
    have : s = [] := List.eq_nil_of_length_eq_zero (Nat.le_zero.mp ha)
    subst this
    cases fb <;> rfl
  | succ n ih =>
    intro fb s ha hb
    cases s with
    | nil => cases fb <;> rfl
    | cons c rest =>
      cases fb with
      | zero => simp at hb
      | succ m =>
        show (if pat ≠ [] ∧ strMatch pat (c :: rest) = true then
            rep ++ pyReplaceFuel pat rep n ((c :: rest).drop pat.length)
          else c :: pyReplaceFuel pat rep n rest) =
          (if pat ≠ [] ∧ strMatch pat (c :: rest) = true then
            rep ++ pyReplaceFuel pat rep m ((c :: rest).drop pat.length)
          else c :: pyReplaceFuel pat rep m rest)
        by_cases hc : pat ≠ [] ∧ strMatch pat (c :: rest) = true
        · rw [if_pos hc, if_pos hc]
          have hlen : ((c :: rest).drop pat.length).length ≤ rest.length := by
            rw [List.length_drop]
            have : 1 ≤ pat.length := by
              cases hp : pat
              · exact absurd hp hc.1
              · simp
            simp only [List.length_cons]
            omega
          simp only [List.length_cons] at ha hb
          rw [ih m _ (by omega) (by omega)]
        · rw [if_neg hc, if_neg hc]
          simp only [List.length_cons] at ha hb
          rw [ih m rest (by omega) (by omega)]

theorem pyReplace_cons (pat rep : List Char) (c : Char) (rest : List Char) :
    pyReplace pat rep (c :: rest) =
      if pat ≠ [] ∧ strMatch pat (c :: rest) = true then
        rep ++ pyReplace pat rep ((c :: rest).drop pat.length)
      else c :: pyReplace pat rep rest := by
  show pyReplaceFuel pat rep (rest.length + 1) (c :: rest) = _
  show (if pat ≠ [] ∧ strMatch pat (c :: rest) = true then
      rep ++ pyReplaceFuel pat rep rest.length ((c :: rest).drop pat.length)
    else c :: pyReplaceFuel pat rep rest.length rest) = _
  by_cases hc : pat ≠ [] ∧ strMatch pat (c :: rest) = true
  · rw [if_pos hc, if_pos hc]
    unfold pyReplace
    have hlen : ((c :: rest).drop pat.length).length ≤ rest.length := by
      rw [List.length_drop]
      have : 1 ≤ pat.length := by
        cases hp : pat
        · exact absurd hp hc.1
        · simp
      simp only [List.length_cons]
      omega
    rw [pyReplaceFuel_irrel pat rep rest.length _ _ hlen (Nat.le_refl _)]
  · rw [if_neg hc, if_neg hc]
    unfold pyReplace
    rfl

theorem strMatch_append (p : List Char) : ∀ (x : List Char), strMatch p (p ++ x) = true := by
  induction p with
  | nil => intro x; rfl
  | cons c cs ih =>
    intro x
    show (decide (c = c) && strMatch cs (cs ++ x)) = true
    rw [decide_eq_true rfl, ih x]
    rfl

theorem pyReplace_single_absent (c : Char) :
    ∀ (s : List Char), (∀ x ∈ s, x ≠ c) → pyReplace [c] [] s = s := by
  intro s
  induction s with
  | nil => intro _; rfl
  | cons x rest ih =>
    intro h
    rw [pyReplace_cons]
    rw [if_neg (by
      rintro ⟨-, hm⟩
      have hx : x ≠ c := h x (List.mem_cons_self _ _)
      have : (decide (c = x) && strMatch [] rest) = true := hm
      rw [decide_eq_false (fun he => hx he.symm)] at this
      simp at this)]
    rw [ih (fun y hy => h y (List.mem_cons_of_mem _ hy))]

theorem pyReplace_single_head (mid : List Char) (h : ∀ x ∈ mid, x ≠ 'S') :
    pyReplace ['S'] [] ('S' :: mid) = mid := by
  rw [pyReplace_cons]
  rw [if_pos ⟨by simp, by
    show (decide ('S' = 'S') && strMatch [] mid) = true
    rw [decide_eq_true rfl]
    rfl⟩]
  show pyReplace ['S'] [] mid = mid
  exact pyReplace_single_absent 'S' mid h

theorem pyReplace_strip_end (pt : List Char) :
    ∀ (mid : List Char), (∀ x ∈ mid, x ≠ '.') →
      pyReplace ('.' :: pt) [] (mid ++ ('.' :: pt)) = mid := by
  intro mid
  induction mid with
  | nil =>
    intro _
    rw [List.nil_append, pyReplace_cons]
    rw [if_pos ⟨by simp, by
      have := strMatch_append ('.' :: pt) []
      rwa [List.append_nil] at this⟩]
    rw [show ('.' :: pt).drop ('.' :: pt).length = [] from List.drop_length _]
    rfl
  | cons x rest ih =>
    intro h
    rw [List.cons_append, pyReplace_cons]
    rw [if_neg (by
      rintro ⟨-, hm⟩
      have hx : x ≠ '.' := h x (List.mem_cons_self _ _)
      have : (decide ('.' = x) && strMatch pt (rest ++ ('.' :: pt))) = true := hm
      rw [decide_eq_false (fun he => hx he.symm)] at this
      simp at this)]
    rw [ih (fun y hy => h y (List.mem_cons_of_mem _ hy))]

theorem periodLabel_std (mid : List Char) (h : ∀ x ∈ mid, x ≠ 'S' ∧ x ≠ '.') :
    periodLabel ⟨'S' :: (mid ++ ".xlsx".data)⟩ = ⟨'S' :: mid⟩ := by
  unfold periodLabel
  have hdata : (String.mk ('S' :: (mid ++ ".xlsx".data))).data =
      'S' :: (mid ++ ".xlsx".data) := rfl
  rw [hdata]
  have h1 : pyReplace ['S'] [] ('S' :: (mid ++ ".xlsx".data)) = mid ++ ".xlsx".data := by
    refine pyReplace_single_head _ ?_
    intro x hx
    rcases List.mem_append.mp hx with hx | hx
    · exact (h x hx).1
    · have hx5 : x ∈ ['.', 'x', 'l', 's', 'x'] := hx
      simp only [List.mem_cons, List.not_mem_nil, or_false] at hx5
      rcases hx5 with rfl | rfl | rfl | rfl | rfl <;> decide
  rw [h1]
  have h2 : pyReplace ".xlsx".data [] (mid ++ ".xlsx".data) = mid := by
    show pyReplace ('.' :: "xlsx".data) [] (mid ++ ('.' :: "xlsx".data)) = mid
    exact pyReplace_strip_end _ mid (fun x hx => (h x hx).2)
  rw [h2]

theorem specPeriodLabel_std (mid : List Char) :
    specPeriodLabel ⟨'S' :: (mid ++ ".xlsx".data)⟩ = ⟨'S' :: mid⟩ := by
  have hinner : stripFront ['S'] (String.mk ('S' :: (mid ++ ".xlsx".data))).data =
      mid ++ ".xlsx".data := by
    unfold stripFront
    rw [if_pos (by
      show (decide ('S' = 'S') && strMatch [] (mid ++ ".xlsx".data)) = true
      rw [decide_eq_true rfl]
      rfl)]
    rfl
  have houter : stripFront ".xlsx".data.reverse ((mid ++ ".xlsx".data)).reverse =
      mid.reverse := by
    unfold stripFront
    rw [List.reverse_append, if_pos (strMatch_append _ _), List.drop_left]
  unfold specPeriodLabel
  rw [hinner, houter, List.reverse_reverse]

/-! ### Sortedness of the output rows -/

theorem sortRows_sorted (rs : List SRow) :
    List.Chain' (fun a b : SRow => b.stotal ≤ a.stotal) (sortRows rs) := by
  letI : IsTotal SRow (fun a b : SRow => b.stotal ≤ a.stotal) :=
    ⟨fun a b => (Int.le_total a.stotal b.stotal).symm⟩
  letI : IsTrans SRow (fun a b : SRow => b.stotal ≤ a.stotal) :=
    ⟨fun _ _ _ hab hbc => le_trans hbc hab⟩
  exact (List.sorted_insertionSort _ rs).chain'

/-- The claim-side extraction of a written row's total: its last cell, read as
a number. -/
def rowTotal (r : List Cell) : Int :=
  match r.getLast? with
  | some (Cell.num n) => n
  | _ => 0

theorem rowTotal_serializeRow (r : SRow) : rowTotal (serializeRow r) = r.stotal := by
  unfold rowTotal serializeRow
  rw [show (r.sname :: r.sphone :: Cell.str r.sid :: (r.sscores ++ [Cell.num r.stotal])) =
    ((r.sname :: r.sphone :: Cell.str r.sid :: r.sscores) ++ [Cell.num r.stotal]) by simp,
    List.getLast?_concat]

/-! ### Reading cells back out of a written row -/

theorem serializeRow_get_zero (r : SRow) : (serializeRow r).get? 0 = some r.sname := rfl

theorem serializeRow_get_one (r : SRow) : (serializeRow r).get? 1 = some r.sphone := rfl

theorem serializeRow_get_two (r : SRow) :
    (serializeRow r).get? 2 = some (Cell.str r.sid) := rfl

theorem serializeRow_get_score (r : SRow) (k : Nat) (hk : k < r.sscores.length) :
    (serializeRow r).get? (3 + k) = r.sscores.get? k := by
  unfold serializeRow
  rw [show 3 + k = (k + 1 + 1) + 1 by omega, List.get?_cons_succ, List.get?_cons_succ,
    List.get?_cons_succ, List.get?_append hk]

theorem serializeRow_get_total (r : SRow) :
    (serializeRow r).get? (3 + r.sscores.length) = some (Cell.num r.stotal) := by
  unfold serializeRow
  rw [show 3 + r.sscores.length = (r.sscores.length + 1 + 1) + 1 by omega,
    List.get?_cons_succ, List.get?_cons_succ, List.get?_cons_succ,
    List.get?_concat_length]

theorem pad_rows {files : List XFile} {u : Bool} {s : Option STable} {t : STable}
    (h : processActivityData files u s = some t) :
    ∀ r ∈ t.rows, ∃ sid sr,
      sid ∈ (runIngestState files u s).participants ∧
      buildRow (runPeriods files u s) (runIngestState files u s) sid = some sr ∧
      r = serializeRow sr := by
  obtain ⟨rows, hbr, -, hrw⟩ := pad_some h
  intro r hr
  rw [hrw] at hr
  obtain ⟨sr, hsr, rfl⟩ := List.mem_map.mp hr
  have hmem : sr ∈ rows := by
    have : sr ∈ rows.insertionSort (fun a b : SRow => b.stotal ≤ a.stotal) := hsr
    exact (List.mem_insertionSort _).mp this
  obtain ⟨sid, hs, hbuild⟩ := buildRows_mem hbr sr hmem
  exact ⟨sid, sr, hs, hbuild, rfl⟩

/-! ### Concrete demonstration data -/

/-- The standard four-column header row of a period file. -/
def demoHeaders : List String := ["年级专业班级姓名", "手机号码", "学号", "总分"]

/-- Period file `S1.xlsx` of the spec's worked example. -/
def demoS1 : XFile :=
  ⟨"S1.xlsx", true, demoHeaders,
    [[Cell.str "A", Cell.str "p100", Cell.num 100, Cell.num 50],
     [Cell.str "B", Cell.str "p101", Cell.num 101, Cell.num 30]]⟩

/-- Period file `S2.xlsx` of the spec's worked example. -/
def demoS2 : XFile :=
  ⟨"S2.xlsx", true, demoHeaders,
    [[Cell.empty, Cell.empty, Cell.num 101, Cell.num 40],
     [Cell.str "C", Cell.str "p102", Cell.num 102, Cell.num 10]]⟩

/-- A later period file giving participant 100 a different display name. -/
def demoS4 : XFile :=
  ⟨"S4.xlsx", true, demoHeaders,
    [[Cell.str "A2", Cell.str "q100", Cell.num 100, Cell.num 5]]⟩

/-- A period file whose only row has an absent display-name cell. -/
def demoNoName : XFile :=
  ⟨"S3.xlsx", true, demoHeaders,
    [[Cell.empty, Cell.str "p7", Cell.num 7, Cell.num 3]]⟩

/-- A candidate file on which opening/parsing raises. -/
def demoBad : XFile := ⟨"S7.xlsx", false, demoHeaders, []⟩

/-- A candidate file whose header row lacks the identifier column `学号`. -/
def demoNoId : XFile :=
  ⟨"S8.xlsx", true, ["年级专业班级姓名", "手机号码", "总分"],
    [[Cell.str "Z", Cell.str "pz", Cell.num 5]]⟩

/-- A period file whose only row has an absent (`None`) identifier cell. -/
def demoNoneId : XFile :=
  ⟨"S9.xlsx", true, demoHeaders,
    [[Cell.str "X", Cell.str "px", Cell.empty, Cell.num 7]]⟩

/-- A period file whose only row has an empty-string identifier cell. -/
def demoEmptyId : XFile :=
  ⟨"S9.xlsx", true, demoHeaders,
    [[Cell.str "X", Cell.str "px", Cell.str "", Cell.num 7]]⟩

/-- An existing summary with one extra `'S'`-headed column `SX`. -/
def demoSummary : STable :=
  ⟨["年级专业班级姓名", "手机号码", "学号", "SX", "总分"],
    [[Cell.str "M", Cell.str "pm", Cell.num 5, Cell.num 2, Cell.num 2]]⟩

/-- The table written by a run over `[demoS1, demoS2]` from an empty state. -/
def demoOut12 : STable :=
  ⟨["年级专业班级姓名", "手机号码", "学号", "S1", "S2", "总分"],
    [[Cell.str "B", Cell.str "p101", Cell.str "101", Cell.num 30, Cell.num 40, Cell.num 70],
     [Cell.str "A", Cell.str "p100", Cell.str "100", Cell.num 50, Cell.num 0, Cell.num 50],
     [Cell.str "C", Cell.str "p102", Cell.str "102", Cell.num 0, Cell.num 10, Cell.num 10]]⟩

/-- The table written by a run over `[demoS1, demoS4]` from an empty state. -/
def demoOut14 : STable :=
  ⟨["年级专业班级姓名", "手机号码", "学号", "S1", "S4", "总分"],
    [[Cell.str "A", Cell.str "p100", Cell.str "100", Cell.num 50, Cell.num 5, Cell.num 55],
     [Cell.str "B", Cell.str "p101", Cell.str "101", Cell.num 30, Cell.num 0, Cell.num 30]]⟩

/-- The table written by a run over `[demoNoName]` from an empty state. -/
def demoOutNoName : STable :=
  ⟨["年级专业班级姓名", "手机号码", "学号", "S3", "总分"],
    [[Cell.empty, Cell.str "p7", Cell.str "7", Cell.num 3, Cell.num 3]]⟩

/-- The table written by a run over `[demoS1]` on top of `demoSummary`. -/
def demoOutC10 : STable :=
  ⟨["年级专业班级姓名", "手机号码", "学号", "S1", "SX", "总分"],
    [[Cell.str "A", Cell.str "p100", Cell.str "100", Cell.num 50, Cell.num 0, Cell.num 50],
     [Cell.str "B", Cell.str "p101", Cell.str "101", Cell.num 30, Cell.num 0, Cell.num 30],
     [Cell.str "M", Cell.str "pm", Cell.str "5", Cell.num 0, Cell.num 2, Cell.num 2]]⟩

/-! ### The claims -/

/-- C1: a candidate period file on which opening/parsing raises is skipped
whole — the run result and the entire ingestion state are the same as if the
file were absent from the candidate list (no participants, no score entries,
not consumed, the remaining files still processed) — and in every run, every
period key referenced by any participant's score dict is a member of the full
known-period list. -/
theorem claim_c1_unreadable_file_skipped (u : Bool) (s : Option STable)
    (pre post : List XFile) (f : XFile) (hf : f.parseOk = false) :
    processActivityData (pre ++ f :: post) u s = processActivityData (pre ++ post) u s ∧
    runIngestState (pre ++ f :: post) u s = runIngestState (pre ++ post) u s ∧
    (∀ (files : List XFile) (sid : String) (pd : PData) (q : String) (c : Cell),
      alookup (runIngestState files u s).allData sid = some pd →
      (q, c) ∈ pd.scores → q ∈ runPeriods files u s) :=
  ⟨pad_middle_inert (consumes_false_parse hf) pre post,
   runIngestState_middle_inert (consumes_false_parse hf) pre post,
   fun files sid pd q c hl hm => runIngest_ScoresSub files u s sid pd hl q c hm⟩

theorem claim_c1_witness :
    processActivityData [demoS1, demoBad] true none = processActivityData [demoS1] true none ∧
    runIngestState [demoS1, demoBad] true none = runIngestState [demoS1] true none ∧
    "S1" ∈ runPeriods [demoS1] true none :=
  ⟨(claim_c1_unreadable_file_skipped true none [demoS1] [] demoBad rfl).1,
   (claim_c1_unreadable_file_skipped true none [demoS1] [] demoBad rfl).2.1,
   (claim_c1_unreadable_file_skipped true none [demoS1] [] demoBad rfl).2.2 [demoS1] "100"
     ⟨⟨Cell.str "A", Cell.str "p100"⟩, [("S1", Cell.num 50)]⟩ "S1" (Cell.num 50)
     (by decide) (by decide)⟩

/-- C7: a candidate period file whose header row lacks one of the four
required columns is rejected whole — the run result and the entire ingestion
state are the same as if the file were absent from the candidate list, so it
contributes zero participants and zero score entries and every other file in
the batch is still processed. -/
theorem claim_c7_schema_rejected (u : Bool) (s : Option STable)
    (pre post : List XFile) (f : XFile) (c : String)
    (hc : c ∈ requiredCols) (hm : c ∉ f.headers) :
    processActivityData (pre ++ f :: post) u s = processActivityData (pre ++ post) u s ∧
    runIngestState (pre ++ f :: post) u s = runIngestState (pre ++ post) u s := by
  have hmiss : (requiredCols.any (fun c => decide (c ∉ f.headers))) = true :=
    List.any_eq_true.mpr ⟨c, hc, by simpa using hm⟩
  exact ⟨pad_middle_inert (consumes_false_missing hmiss) pre post,
    runIngestState_middle_inert (consumes_false_missing hmiss) pre post⟩

theorem claim_c7_witness :
    processActivityData [demoS1, demoNoId] true none = processActivityData [demoS1] true none ∧
    runIngestState [demoS1, demoNoId] true none = runIngestState [demoS1] true none :=
  claim_c7_schema_rejected true none [demoS1] [] demoNoId "学号" (by decide) (by decide)

/-- C3: running the ingestion twice in update mode on the same candidate
files writes nothing the second time: whatever the first run leaves as the
summary file, the second run consumes zero files and returns without writing,
and the period label of every file consumed by a writing first run is among
the period columns the second run loads from the written summary. -/
theorem claim_c3_idempotent (files : List XFile) (s : Option STable) :
    processActivityData files true
      ((processActivityData files true s).elim s some) = none ∧
    (∀ t, processActivityData files true s = some t →
      (runIngestState files true (some t)).processed = []) ∧
    (∀ t, processActivityData files true s = some t →
      ∀ f ∈ files, f.name ∈ (runIngestState files true s).processed →
        periodLabel f.name ∈ (initPeriods true (some t)).2) := by
  refine ⟨run_twice_none files s, fun t ht => secondRun_processed_nil ht, ?_⟩
  intro t ht f hf hp
  rw [secondRun_periods ht]
  unfold runIngestState at hp
  rw [ingestAll_processed] at hp
  have hp' : f.name ∈
      (files.filter (consumes true (initPeriods true s).2)).map (fun g => g.name) := by
    rw [show (initState (initPeriods true s).1).processed = [] from rfl,
      List.nil_append] at hp
    exact hp
  obtain ⟨g, hg, hgname⟩ := List.mem_map.mp hp'
  rw [← hgname]
  exact label_mem_runPeriods (List.mem_filter.mp hg).1 (List.mem_filter.mp hg).2

theorem claim_c3_witness :
    processActivityData [demoS1, demoS2] true
      ((processActivityData [demoS1, demoS2] true none).elim none some) = none ∧
    (runIngestState [demoS1, demoS2] true (some demoOut12)).processed = [] ∧
    periodLabel "S1.xlsx" ∈ (initPeriods true (some demoOut12)).2 :=
  ⟨(claim_c3_idempotent [demoS1, demoS2] none).1,
   (claim_c3_idempotent [demoS1, demoS2] none).2.1 demoOut12 (by decide),
   (claim_c3_idempotent [demoS1, demoS2] none).2.2 demoOut12 (by decide) demoS1
     (by decide) (by decide)⟩

/-- C4: once an identifier's identity attributes are recorded (from the first
file in which it was seen, a loaded existing summary seeding them first),
processing any further files never changes them, and every output row carrying
that identifier shows exactly those attributes in its name and contact cells. -/
theorem claim_c4_first_write_wins (u : Bool) (s : Option STable)
    (files extra : List XFile) (sid : String) (inf : PInfo)
    (h : alookup (runIngestState files u s).participantInfo sid = some inf) :
    alookup (runIngestState (files ++ extra) u s).participantInfo sid = some inf ∧
    (∀ t, processActivityData (files ++ extra) u s = some t →
      ∀ r ∈ t.rows, r.get? 2 = some (Cell.str sid) →
        r.get? 0 = some inf.pname ∧ r.get? 1 = some inf.pphone) := by
  have hstable : alookup (runIngestState (files ++ extra) u s).participantInfo sid =
      some inf := by
    unfold runIngestState
    rw [ingestAll_append]
    exact ingestAll_participantInfo_stable _ _ _ _ h
  refine ⟨hstable, ?_⟩
  intro t ht r hr h2
  obtain ⟨sid', sr, -, hbuild, rfl⟩ := pad_rows ht r hr
  obtain ⟨hsid, hname, hphone, -, -⟩ := buildRow_some hbuild
  rw [serializeRow_get_two] at h2
  have hss : sr.sid = sid := Cell.str.inj (Option.some.inj h2)
  rw [hss] at hsid
  subst hsid
  constructor
  · rw [serializeRow_get_zero, hname, hstable]
    rfl
  · rw [serializeRow_get_one, hphone, hstable]
    rfl

theorem claim_c4_witness :
    alookup (runIngestState [demoS1, demoS4] true none).participantInfo "100" =
      some ⟨Cell.str "A", Cell.str "p100"⟩ ∧
    ([Cell.str "A", Cell.str "p100", Cell.str "100", Cell.num 50, Cell.num 5,
        Cell.num 55] : List Cell).get? 0 = some (Cell.str "A") ∧
    ([Cell.str "A", Cell.str "p100", Cell.str "100", Cell.num 50, Cell.num 5,
        Cell.num 55] : List Cell).get? 1 = some (Cell.str "p100") :=
  ⟨(claim_c4_first_write_wins true none [demoS1] [demoS4] "100"
      ⟨Cell.str "A", Cell.str "p100"⟩ (by decide)).1,
   ((claim_c4_first_write_wins true none [demoS1] [demoS4] "100"
      ⟨Cell.str "A", Cell.str "p100"⟩ (by decide)).2 demoOut14 (by decide)
      [Cell.str "A", Cell.str "p100", Cell.str "100", Cell.num 50, Cell.num 5,
        Cell.num 55] (by decide) (by decide)).1,
   ((claim_c4_first_write_wins true none [demoS1] [demoS4] "100"
      ⟨Cell.str "A", Cell.str "p100"⟩ (by decide)).2 demoOut14 (by decide)
      [Cell.str "A", Cell.str "p100", Cell.str "100", Cell.num 50, Cell.num 5,
        Cell.num 55] (by decide) (by decide)).2⟩

theorem buildRow_scores_num {aps : List String} {st : IngestState} {sid : String}
    {sr : SRow} (h : buildRow aps st sid = some sr) :
    sr.sscores = aps.map (fun p => Cell.num (lookupScoreInt (scoresOf st sid) p)) ∧
    sr.stotal = aps.foldl (fun a p => a + lookupScoreInt (scoresOf st sid) p) 0 := by
  obtain ⟨-, -, -, hsc, hsum⟩ := buildRow_some h
  rw [hsc] at hsum
  obtain ⟨hall, htot⟩ := sumCells_some hsum
  constructor
  · rw [hsc]
    refine List.map_congr_left ?_
    intro p hp
    obtain ⟨n, hn⟩ := hall _ (List.mem_map_of_mem _ hp)
    rw [hn]
    unfold lookupScoreInt
    rw [hn]
    rfl
  · rw [htot, List.foldl_map]
    rfl

/-- C5: in every produced output table, a row carrying identifier `sid` has,
for each position `k` of the full sorted period list, the numeric cell holding
that participant's stored score for that period (a missing entry read as `0`),
and its total cell holds the sum of exactly those per-period values over the
whole period list. -/
theorem claim_c5_zero_default_totals (files : List XFile) (u : Bool)
    (s : Option STable) (t : STable)
    (h : processActivityData files u s = some t) :
    ∀ r ∈ t.rows, ∀ sid : String, r.get? 2 = some (Cell.str sid) →
      (∀ k p, (runPeriods files u s).get? k = some p →
        r.get? (3 + k) =
          some (Cell.num (lookupScoreInt (scoresOf (runIngestState files u s) sid) p))) ∧
      r.get? (3 + (runPeriods files u s).length) =
        some (Cell.num ((runPeriods files u s).foldl
          (fun a p => a + lookupScoreInt (scoresOf (runIngestState files u s) sid) p) 0)) := by
  intro r hr sid h2
  obtain ⟨sid', sr, -, hbuild, rfl⟩ := pad_rows h r hr
  rw [serializeRow_get_two] at h2
  have hss : sr.sid = sid := Cell.str.inj (Option.some.inj h2)
  obtain ⟨hsid, -, -, -, -⟩ := buildRow_some hbuild
  rw [hss] at hsid
  subst hsid
  obtain ⟨hsc, htot⟩ := buildRow_scores_num hbuild
  have hlen : sr.sscores.length = (runPeriods files u s).length := by
    rw [hsc, List.length_map]
  constructor
  · intro k p hkp
    have hk : k < (runPeriods files u s).length := by
      by_contra hge
      rw [List.get?_eq_none.mpr (by omega)] at hkp
      cases hkp
    rw [serializeRow_get_score sr k (by omega), hsc, List.get?_map, hkp]
    rfl
  · rw [show 3 + (runPeriods files u s).length = 3 + sr.sscores.length by rw [hlen],
      serializeRow_get_total, htot]

theorem claim_c5_witness :
    ([Cell.str "A", Cell.str "p100", Cell.str "100", Cell.num 50, Cell.num 0,
        Cell.num 50] : List Cell).get? (3 + 1) =
      some (Cell.num (lookupScoreInt
        (scoresOf (runIngestState [demoS1, demoS2] true none) "100") "S2")) ∧
    ([Cell.str "A", Cell.str "p100", Cell.str "100", Cell.num 50, Cell.num 0,
        Cell.num 50] : List Cell).get? (3 + (runPeriods [demoS1, demoS2] true none).length) =
      some (Cell.num ((runPeriods [demoS1, demoS2] true none).foldl
        (fun a p => a + lookupScoreInt
          (scoresOf (runIngestState [demoS1, demoS2] true none) "100") p) 0)) :=
  ⟨(claim_c5_zero_default_totals [demoS1, demoS2] true none demoOut12 (by decide)
      [Cell.str "A", Cell.str "p100", Cell.str "100", Cell.num 50, Cell.num 0, Cell.num 50]
      (by decide) "100" (by decide)).1 1 "S2" (by decide),
   (claim_c5_zero_default_totals [demoS1, demoS2] true none demoOut12 (by decide)
      [Cell.str "A", Cell.str "p100", Cell.str "100", Cell.num 50, Cell.num 0, Cell.num 50]
      (by decide) "100" (by decide)).2⟩

/-- C6: in every produced output table the data rows are sorted by the value
of their last (total) cell in non-increasing order. -/
theorem claim_c6_sorted_descending (files : List XFile) (u : Bool)
    (s : Option STable) (t : STable)
    (h : processActivityData files u s = some t) :
    List.Chain' (fun a b => rowTotal b ≤ rowTotal a) t.rows := by
  obtain ⟨rows, -, -, hrw⟩ := pad_some h
  rw [hrw, List.chain'_map]
  refine List.Chain'.imp ?_ (sortRows_sorted rows)
  intro a b hab
  rw [rowTotal_serializeRow, rowTotal_serializeRow]
  exact hab

theorem claim_c6_witness :
    List.Chain' (fun a b => rowTotal b ≤ rowTotal a) demoOut12.rows :=
  claim_c6_sorted_descending [demoS1, demoS2] true none demoOut12 (by decide)

/-- C9 counterexample: ingesting a row whose display-name cell is absent
yields an output row whose display-name cell is the absent value, not the
`'未知'` ("unknown") sentinel — the claim as stated is false on the code. -/
theorem claim_c9_counterexample :
    processActivityData [demoNoName] true none = some demoOutNoName ∧
    demoOutNoName.rows.map (fun r => r.get? 0) = [some Cell.empty] ∧
    Cell.empty ≠ Cell.str "未知" := by
  refine ⟨by decide, by decide, by decide⟩

/-- C9 amended: an ingested row with an absent display-name cell leaves the
participant's recorded display name absent, and the final output carries that
absent value through; the `'未知'` sentinel would apply only to an identifier
with no recorded info entry, which ingestion never produces. -/
theorem claim_c9_absent_name_absent (u : Bool) (s : Option STable)
    (files extra : List XFile) (sid : String) (ph : Cell)
    (h : alookup (runIngestState files u s).participantInfo sid =
      some ⟨Cell.empty, ph⟩) :
    ∀ t, processActivityData (files ++ extra) u s = some t →
      ∀ r ∈ t.rows, r.get? 2 = some (Cell.str sid) →
        r.get? 0 = some Cell.empty := by
  intro t ht r hr h2
  have hstable : alookup (runIngestState (files ++ extra) u s).participantInfo sid =
      some ⟨Cell.empty, ph⟩ := by
    unfold runIngestState
    rw [ingestAll_append]
    exact ingestAll_participantInfo_stable _ _ _ _ h
  obtain ⟨sid', sr, -, hbuild, rfl⟩ := pad_rows ht r hr
  rw [serializeRow_get_two] at h2
  have hss : sr.sid = sid := Cell.str.inj (Option.some.inj h2)
  obtain ⟨hsid, hname, -, -, -⟩ := buildRow_some hbuild
  rw [hss] at hsid
  subst hsid
  rw [serializeRow_get_zero, hname, hstable]
  rfl

theorem claim_c9_witness :
    ([Cell.empty, Cell.str "p7", Cell.str "7", Cell.num 3, Cell.num 3] : List Cell).get? 0 =
      some Cell.empty :=
  claim_c9_absent_name_absent true none [demoNoName] [] "7" (Cell.str "p7") (by decide)
    demoOutNoName (by decide)
    [Cell.empty, Cell.str "p7", Cell.str "7", Cell.num 3, Cell.num 3] (by decide) (by decide)

/-- C8 counterexample: the code strips every occurrence of `'S'` and of
`'.xlsx'` from the file name, not just the fixed prefix and suffix — on the
pattern-matching name `S2S.xlsx` the derived label is `S2`, while the spec's
prefix-plus-middle rule gives `S2S`. -/
theorem claim_c8_counterexample :
    periodLabel "S2S.xlsx" = "S2" ∧ specPeriodLabel "S2S.xlsx" = "S2S" ∧
    periodLabel "S2S.xlsx" ≠ specPeriodLabel "S2S.xlsx" := by
  refine ⟨by decide, by decide, by decide⟩

/-- C8 amended: the derived PeriodLabel is `'S'` followed by the file name
with every occurrence of the character `'S'` and of the substring `'.xlsx'`
removed; for names of the shape `'S' + middle + '.xlsx'` in which the middle
text contains neither `'S'` nor `'.'` (e.g. the conventional all-digit
middles), this coincides with the spec's fixed-prefix-plus-middle rule. -/
theorem claim_c8_label_on_clean_middles (mid : List Char)
    (h : ∀ x ∈ mid, x ≠ 'S' ∧ x ≠ '.') :
    periodLabel ⟨'S' :: (mid ++ ".xlsx".data)⟩ = ⟨'S' :: mid⟩ ∧
    specPeriodLabel ⟨'S' :: (mid ++ ".xlsx".data)⟩ = ⟨'S' :: mid⟩ ∧
    periodLabel ⟨'S' :: (mid ++ ".xlsx".data)⟩ =
      specPeriodLabel ⟨'S' :: (mid ++ ".xlsx".data)⟩ := by
  refine ⟨periodLabel_std mid h, specPeriodLabel_std mid, ?_⟩
  rw [periodLabel_std mid h, specPeriodLabel_std mid]

theorem claim_c8_witness :
    periodLabel ⟨'S' :: (['2'] ++ ".xlsx".data)⟩ = ⟨'S' :: ['2']⟩ ∧
    specPeriodLabel ⟨'S' :: (['2'] ++ ".xlsx".data)⟩ = ⟨'S' :: ['2']⟩ ∧
    periodLabel ⟨'S' :: (['2'] ++ ".xlsx".data)⟩ =
      specPeriodLabel ⟨'S' :: (['2'] ++ ".xlsx".data)⟩ :=
  claim_c8_label_on_clean_middles ['2'] (by decide)

/-- C2, evaluated at the failing input: a data row whose identifier cell is
absent (`None`) is NOT skipped — Python's `str(None)` is the non-empty string
`"None"`, so the row is ingested under the identifier `"None"` — whereas a row
whose identifier cell is the empty string is skipped as the claim says. -/
theorem claim_c2_eval :
    pyStr Cell.empty = "None" ∧
    (runIngestState [demoNoneId] true none).participants = ["None"] ∧
    alookup (runIngestState [demoNoneId] true none).allData "None" =
      some ⟨⟨Cell.str "X", Cell.str "px"⟩, [("S9", Cell.num 7)]⟩ ∧
    (runIngestState [demoEmptyId] true none).participants = [] := by
  refine ⟨rfl, by decide, by decide, by decide⟩

/-- C10: when the four fixed columns are all present, the summary reader
classifies a header as a period column exactly when it is not one of the four
fixed column names and its text starts with `'S'`; and every period column
loaded from an existing summary (so also an extra non-period `'S'`-headed
column) reappears as a column of the output header row of any writing
update-mode run over it. -/
theorem claim_c10_period_column_classification (headers : List String)
    (hreq : ∀ c ∈ requiredCols, c ∈ headers) (hdr : String) :
    (hdr ∈ summaryPeriodCols headers ↔
      hdr ∈ headers ∧ startsWithS hdr = true ∧ hdr ∉ requiredCols) ∧
    (∀ (t : STable) (files : List XFile) (out : STable),
      processActivityData files true (some t) = some out →
      ∀ p ∈ (readExistingSummary t).2, p ∈ out.headers) := by
  constructor
  · constructor
    · intro hm
      obtain ⟨k, hget, hS, hkF⟩ := mem_periodColsAux.mp hm
      refine ⟨List.get?_mem hget, hS, ?_⟩
      intro hin
      have hf : startsWithS hdr = false := by
        have : hdr = "年级专业班级姓名" ∨ hdr = "手机号码" ∨ hdr = "学号" ∨ hdr = "总分" := by
          simpa [requiredCols] using hin
        rcases this with rfl | rfl | rfl | rfl <;> decide
      rw [hf] at hS
      cases hS
    · rintro ⟨hmem, hS, hnot⟩
      obtain ⟨k, hk⟩ := List.mem_iff_get?.mp hmem
      refine mem_periodColsAux.mpr ⟨k, hk, hS, ?_⟩
      intro hkF
      simp only [List.mem_cons, List.not_mem_nil, or_false] at hkF
      have hcase : ∀ c, c ∈ requiredCols → k = headers.indexOf c → False := by
        intro c hc hkc
        rw [hkc, List.indexOf_get? (hreq c hc)] at hk
        exact hnot (Option.some.inj hk ▸ hc)
      rcases hkF with h1 | h1 | h1 | h1
      · exact hcase "年级专业班级姓名" (by decide) (by omega)
      · exact hcase "手机号码" (by decide) (by omega)
      · exact hcase "学号" (by decide) (by omega)
      · exact hcase "总分" (by decide) (by omega)
  · intro t files out hout p hp
    obtain ⟨rows, -, hh, -⟩ := pad_some hout
    rw [hh]
    have hper : p ∈ runPeriods files true (some t) :=
      ep_sub_runPeriods (show p ∈ (initPeriods true (some t)).2 from hp)
    show p ∈ ["年级专业班级姓名", "手机号码", "学号"] ++ runPeriods files true (some t) ++ ["总分"]
    simp only [List.mem_append]
    exact Or.inl (Or.inr hper)

theorem claim_c10_witness :
    ("SX" ∈ summaryPeriodCols ["年级专业班级姓名", "手机号码", "学号", "SX", "总分"] ↔
      "SX" ∈ ["年级专业班级姓名", "手机号码", "学号", "SX", "总分"] ∧
        startsWithS "SX" = true ∧ "SX" ∉ requiredCols) ∧
    "SX" ∈ demoOutC10.headers :=
  ⟨(claim_c10_period_column_classification
      ["年级专业班级姓名", "手机号码", "学号", "SX", "总分"] (by decide) "SX").1,
   (claim_c10_period_column_classification
      ["年级专业班级姓名", "手机号码", "学号", "SX", "总分"] (by decide) "SX").2
      demoSummary [demoS1] demoOutC10 (by decide) "SX" (by decide)⟩
